import Mathlib

/-!
Shallow embedding of the bitraft replicated state-machine layer
(server.go of github.com/carlvine500/bitraft).

Keys and values are byte sequences, modelled as lists of naturals
(each element standing for one byte).  The storage collaborator
(bitcask) is external to the repository; per the specification's
collaborator contract it offers get / put / delete / fold-in-key-order,
and we model its keyspace as an association list sorted strictly
ascending in lexicographic byte order, so that folding the list is
folding the keys in ascending order.  Delete on a missing key succeeds
(bitcask writes a tombstone unconditionally and reports no error).

The command handlers, the dispatcher, the snapshot encoder
(Machine.Snapshot), the restore loop (Machine.Restore) and the offline
snapshot-to-commands converter (WriteRedisCommandsFromSnapshot) are
translated function by function from server.go.  The gzip wrapping of
the snapshot stream is a lossless transport and is modelled as the
identity on the byte stream; the record codec underneath it is
modelled byte for byte.  The recursive loops over streams are written
with an explicit fuel argument so that every definition is structural
and kernel-computable; the wrappers pass the stream length as fuel,
which is always sufficient because each loop iteration consumes at
least sixteen bytes of the stream.
-/

namespace Bitraft

/-- Bytes of a Go string or byte slice, one natural per byte. -/
abbrev Bytes := List Nat

/-- Lowercasing of one ASCII byte, as strings.ToLower acts on ASCII. -/
def lowerByte (b : Nat) : Nat :=
  if 65 ≤ b ∧ b ≤ 90 then b + 32 else b

/-- Bytewise ASCII lowercasing, modelling strings.ToLower on the command name. -/
def lowerBytes (s : Bytes) : Bytes :=
  s.map lowerByte

/-- Strict lexicographic byte order on keys, the order of Go string comparison. -/
def keyLt : Bytes → Bytes → Bool
  | [], [] => false
  | [], _ :: _ => true
  | _ :: _, [] => false
  | a :: as, b :: bs => a < b || (a == b && keyLt as bs)

/-- Keyspace of the storage collaborator: an association list of
entries sorted strictly ascending by key. -/
abbrev Keyspace := List (Bytes × Bytes)

/-- Sortedness invariant of a keyspace: keys strictly ascending, hence unique. -/
def SortedKS (K : Keyspace) : Prop :=
  List.Pairwise (fun a b => keyLt a.1 b.1 = true) K

instance (K : Keyspace) : Decidable (SortedKS K) := by
  unfold SortedKS; infer_instance

/-- Storage get: lookup of a key, none when absent (the collaborator's
key-not-found outcome). -/
def dbGet (k : Bytes) : Keyspace → Option Bytes
  | [] => none
  | (k', v') :: rest => if k = k' then some v' else dbGet k rest

/-- Storage put: insert or overwrite, keeping the list sorted. -/
def dbPut (k v : Bytes) : Keyspace → Keyspace
  | [] => [(k, v)]
  | (k', v') :: rest =>
    if keyLt k k' then (k, v) :: (k', v') :: rest
    else if k = k' then (k, v) :: rest
    else (k', v') :: dbPut k v rest

/-- Storage delete: remove the entry when present.  Deleting a missing
key succeeds and is a no-op (bitcask tombstone semantics: no error). -/
def dbDelete (k : Bytes) : Keyspace → Keyspace
  | [] => []
  | (k', v') :: rest => if k = k' then rest else (k', v') :: dbDelete k rest

/-- Reply written back on a connection.  An array reply always consists
of bulk items in this program, so arr carries the bulk payloads. -/
inductive Reply where
  | str (s : Bytes)
  | int (n : Int)
  | bulk (b : Bytes)
  | nullReply
  | arr (items : List Bytes)
deriving DecidableEq

/-- Errors surfaced by the dispatcher and the handlers. -/
inductive Err where
  | wrongArgs
  | unknownCmd
  | synErr
deriving DecidableEq

/-- Outcome of dispatching one command: a reply together with the
resulting keyspace, a process shutdown, or an error (an error is
returned before or instead of any keyspace mutation, so the keyspace
is unchanged in that case). -/
inductive Outcome where
  | done (K : Keyspace) (r : Reply)
  | shutdown
  | fail (e : Err)
deriving DecidableEq

/-- Bytes of the command name echo. -/
def strEcho : Bytes := [101, 99, 104, 111]

/-- Bytes of the command name set. -/
def strSet : Bytes := [115, 101, 116]

/-- Bytes of the command name get. -/
def strGet : Bytes := [103, 101, 116]

/-- Bytes of the command name del. -/
def strDel : Bytes := [100, 101, 108]

/-- Bytes of the command name keys. -/
def strKeys : Bytes := [107, 101, 121, 115]

/-- Bytes of the command name flushdb. -/
def strFlushdb : Bytes := [102, 108, 117, 115, 104, 100, 98]

/-- Bytes of the command name shutdown. -/
def strShutdown : Bytes := [115, 104, 117, 116, 100, 111, 119, 110]

/-- Bytes of the keys flag withvalues. -/
def strWithvalues : Bytes := [119, 105, 116, 104, 118, 97, 108, 117, 101, 115]

/-- Bytes of the simple-string reply OK. -/
def strOK : Bytes := [79, 75]

/-- Handler cmdEcho: exactly one argument after the name (the Go check
len(cmd.Args) != 2), echoed back as a bulk reply. -/
def cmdEcho (K : Keyspace) (args : List Bytes) : Outcome :=
  match args with
  | [_, msg] => Outcome.done K (Reply.bulk msg)
  | _ => Outcome.fail Err.wrongArgs

/-- Handler cmdSet: exactly key and value after the name (the Go check
len(cmd.Args) != 3); stores the entry and acknowledges with OK. -/
def cmdSet (K : Keyspace) (args : List Bytes) : Outcome :=
  match args with
  | [_, k, v] => Outcome.done (dbPut k v K) (Reply.str strOK)
  | _ => Outcome.fail Err.wrongArgs

/-- Handler cmdGet: exactly one key after the name (the Go check
len(cmd.Args) != 2); a missing key renders a null reply, a present key
renders its value as a bulk reply. -/
def cmdGet (K : Keyspace) (args : List Bytes) : Outcome :=
  match args with
  | [_, k] =>
    match dbGet k K with
    | some v => Outcome.done K (Reply.bulk v)
    | none => Outcome.done K Reply.nullReply
  | _ => Outcome.fail Err.wrongArgs

/-- Delete loop of cmdDel: for i from startIdx to the end, delete the
key and increment the counter.  The counter increments on every
iteration since the storage delete reports no error for missing keys. -/
def delLoop (K : Keyspace) (keys : List Bytes) (n : Nat) : Keyspace × Nat :=
  match keys with
  | [] => (K, n)
  | k :: rest => delLoop (dbDelete k K) rest (n + 1)

/-- Handler cmdDel: no arity check is performed (the Go handler has
none); every argument after the name is deleted and the count of loop
iterations is returned as an integer reply. -/
def cmdDel (K : Keyspace) (args : List Bytes) : Outcome :=
  Outcome.done (delLoop K (args.drop 1) 0).1 (Reply.int (delLoop K (args.drop 1) 0).2)

/-- Flag parsing of cmdKeys over the arguments from index 2 on: each
must lowercase to withvalues (else a syntax error); the flag is set
when at least one is present. -/
def parseKeysFlags : List Bytes → Option Bool
  | [] => some false
  | a :: rest =>
    if lowerBytes a = strWithvalues then
      match parseKeysFlags rest with
      | some _ => some true
      | none => none
    else none

/-- Body of the keys enumeration: folding the storage in key order
collects the keys and, with the flag, each key's value; the reply
interleaves each key immediately followed by its value when the flag
is set. -/
def keysEntries (withvalues : Bool) (K : Keyspace) : List Bytes :=
  if withvalues then (K.map (fun e => [e.1, e.2])).flatten
  else K.map (fun e => e.1)

/-- Handler cmdKeys: requires at least one argument after the name (the
Go check len(cmd.Args) < 2); the first argument is a pattern that is
never read; the remaining arguments are parsed as flags. -/
def cmdKeys (K : Keyspace) (args : List Bytes) : Outcome :=
  if args.length < 2 then Outcome.fail Err.wrongArgs
  else
    match parseKeysFlags (args.drop 2) with
    | none => Outcome.fail Err.synErr
    | some wv => Outcome.done K (Reply.arr (keysEntries wv K))

/-- Handler cmdFlushdb: no argument after the name (the Go check
len(cmd.Args) != 1); it syncs storage, which leaves the keyspace
unchanged, and acknowledges with OK. -/
def cmdFlushdb (K : Keyspace) (args : List Bytes) : Outcome :=
  match args with
  | [_] => Outcome.done K (Reply.str strOK)
  | _ => Outcome.fail Err.wrongArgs

/-- Dispatcher Machine.Command: lowercases the name and routes; an
unrecognized name is an unknown-command error; shutdown acknowledges
and terminates the process without any arity check. -/
def dispatch (K : Keyspace) (args : List Bytes) : Outcome :=
  match args with
  | [] => Outcome.fail Err.unknownCmd
  | name :: _ =>
    if lowerBytes name = strEcho then cmdEcho K args
    else if lowerBytes name = strSet then cmdSet K args
    else if lowerBytes name = strGet then cmdGet K args
    else if lowerBytes name = strDel then cmdDel K args
    else if lowerBytes name = strKeys then cmdKeys K args
    else if lowerBytes name = strFlushdb then cmdFlushdb K args
    else if lowerBytes name = strShutdown then Outcome.shutdown
    else Outcome.fail Err.unknownCmd

/-- Committed write command as it reaches the deterministic apply
callback: a set with key and value, or a del with its key list. -/
inductive WriteCmd where
  | setCmd (k v : Bytes)
  | delCmd (keys : List Bytes)
deriving DecidableEq

/-- Deterministic apply of one committed write: the keyspace update and
the apply result, a pure function of the prior keyspace and the
command (the Go closures read nothing but cmd.Args and the storage). -/
def applyWrite (K : Keyspace) : WriteCmd → Keyspace × Reply
  | WriteCmd.setCmd k v => (dbPut k v K, Reply.str strOK)
  | WriteCmd.delCmd keys => ((delLoop K keys 0).1, Reply.int (delLoop K keys 0).2)

/-- Replay of a sequence of committed writes in commit order, returning
the final keyspace and the per-command apply results. -/
def runSeq (K : Keyspace) : List WriteCmd → Keyspace × List Reply
  | [] => (K, [])
  | c :: cs =>
    ((runSeq (applyWrite K c).1 cs).1, (applyWrite K c).2 :: (runSeq (applyWrite K c).1 cs).2)

/-- Little-endian eight-byte encoding of a length, as
binary.LittleEndian.PutUint64 lays it out. -/
def le64 (n : Nat) : Bytes :=
  [n % 256, n / 256 % 256, n / 256 ^ 2 % 256, n / 256 ^ 3 % 256,
   n / 256 ^ 4 % 256, n / 256 ^ 5 % 256, n / 256 ^ 6 % 256, n / 256 ^ 7 % 256]

/-- Little-endian read of the first eight bytes of a stream, as
binary.LittleEndian.Uint64 combines them. -/
def readLE64 (s : Bytes) : Nat :=
  s.getD 0 0 + 256 * (s.getD 1 0 + 256 * (s.getD 2 0 + 256 * (s.getD 3 0 +
    256 * (s.getD 4 0 + 256 * (s.getD 5 0 + 256 * (s.getD 6 0 + 256 * s.getD 7 0))))))

/-- Record layout of one entry in the snapshot stream: key length, key
bytes, value length, value bytes. -/
def encodeEntry (e : Bytes × Bytes) : Bytes :=
  le64 e.1.length ++ e.1 ++ le64 e.2.length ++ e.2

/-- Machine.Snapshot: fold the keyspace in key order and emit one
record per entry (the gzip frame around the records is lossless and
dropped from the model). -/
def snapshotBytes (K : Keyspace) : Bytes :=
  (K.map encodeEntry).flatten

/-- One record read of the decode loop, mirroring its four io.ReadFull
calls: none models any of the reads failing (io.EOF on a lone length
field is handled by the caller before this runs on an empty stream;
every other short read, io.EOF or io.ErrUnexpectedEOF, is returned as
an error by the Go loop).  Returns the entry and the remaining
stream. -/
def readRec (s : Bytes) : Option ((Bytes × Bytes) × Bytes) :=
  if s.length < 8 then none
  else if (s.drop 8).length < readLE64 (s.take 8) then none
  else if ((s.drop 8).drop (readLE64 (s.take 8))).length < 8 then none
  else if (((s.drop 8).drop (readLE64 (s.take 8))).drop 8).length <
      readLE64 (((s.drop 8).drop (readLE64 (s.take 8))).take 8) then none
  else
    some (((s.drop 8).take (readLE64 (s.take 8)),
        (((s.drop 8).drop (readLE64 (s.take 8))).drop 8).take
          (readLE64 (((s.drop 8).drop (readLE64 (s.take 8))).take 8))),
      (((s.drop 8).drop (readLE64 (s.take 8))).drop 8).drop
        (readLE64 (((s.drop 8).drop (readLE64 (s.take 8))).take 8)))

/-- Decode loop over the record stream with explicit fuel.  An empty
stream is a clean end (the io.EOF break on the first length read); a
nonempty stream must start a full record or the loop returns an
error.  The fuel-exhausted case is unreachable whenever the fuel is at
least the stream length, since a record consumes at least sixteen
bytes. -/
def decodeGo : Nat → Bytes → Except Unit (List (Bytes × Bytes))
  | _, [] => Except.ok []
  | 0, _ :: _ => Except.error ()
  | f + 1, b :: t =>
    match readRec (b :: t) with
    | none => Except.error ()
    | some (e, rest) =>
      match decodeGo f rest with
      | Except.error u => Except.error u
      | Except.ok es => Except.ok (e :: es)

/-- Record-stream decoder: the decode loop shared by Machine.Restore
and WriteRedisCommandsFromSnapshot, run with sufficient fuel. -/
def decodeRecs (s : Bytes) : Except Unit (List (Bytes × Bytes)) :=
  decodeGo s.length s

/-- Restore loop with explicit fuel: each decoded record is put into
storage as soon as its two reads complete; a failed read stops the
loop, returning the keyspace built so far and false.  A clean end of
stream returns true. -/
def restoreGo : Nat → Keyspace → Bytes → Keyspace × Bool
  | _, K, [] => (K, true)
  | 0, K, _ :: _ => (K, false)
  | f + 1, K, b :: t =>
    match readRec (b :: t) with
    | none => (K, false)
    | some (e, rest) => restoreGo f (dbPut e.1 e.2 K) rest

/-- Restore loop of Machine.Restore run on a given starting keyspace
with sufficient fuel. -/
def restoreRun (K : Keyspace) (s : Bytes) : Keyspace × Bool :=
  restoreGo s.length K s

/-- Machine.Restore: the existing storage instance is closed and a
fresh instance is opened, then the stream is replayed into it.  The
model grants the code its intent that the reopened instance is empty
(the removal targets a path of its own; bitcask's on-disk layout is
outside this repository) and returns the keyspace after the replay
together with the success flag. -/
def machineRestore (s : Bytes) : Keyspace × Bool :=
  restoreRun [] s

/-- Replay of a list of decoded entries by unconditional puts, the
effect of a fully successful restore loop on the keyspace. -/
def replayRecs (K : Keyspace) (es : List (Bytes × Bytes)) : Keyspace :=
  es.foldl (fun s e => dbPut e.1 e.2 s) K

/-- Filter of WriteRedisCommandsFromSnapshot: a record is kept exactly
when its key is nonempty and starts with the namespace marker byte
(the character k, 107). -/
def keepRec (e : Bytes × Bytes) : Bool :=
  match e.1 with
  | [] => false
  | b :: _ => b == 107

/-- Decimal digit rendering with fuel, as strconv.AppendInt renders a
nonnegative count in base ten.  Fuel n + 1 always suffices. -/
def decGo : Nat → Nat → Bytes
  | 0, _ => []
  | f + 1, n => if n < 10 then [48 + n] else decGo f (n / 10) ++ [48 + n % 10]

/-- Decimal ASCII digits of a natural number. -/
def decDigits (n : Nat) : Bytes :=
  decGo (n + 1) n

/-- One emitted command block of WriteRedisCommandsFromSnapshot, built
byte for byte: *3, $3 SET, then the dollar-length-prefixed key and
value, each line ending in carriage return and line feed. -/
def renderSetCmd (key value : Bytes) : Bytes :=
  [42, 51, 13, 10, 36, 51, 13, 10, 83, 69, 84, 13, 10, 36] ++
    decDigits key.length ++ [13, 10] ++ key ++ [13, 10, 36] ++
    decDigits value.length ++ [13, 10] ++ value ++ [13, 10]

/-- Loop of WriteRedisCommandsFromSnapshot with explicit fuel: decode
records as in the restore loop; a record whose key is empty or lacks
the marker byte is skipped; otherwise the marker byte is stripped and
one command block is appended to the output.  The accumulated output
and the success flag are returned. -/
def parseGo : Nat → Bytes → Bytes → Bytes × Bool
  | _, acc, [] => (acc, true)
  | 0, acc, _ :: _ => (acc, false)
  | f + 1, acc, b :: t =>
    match readRec (b :: t) with
    | none => (acc, false)
    | some (e, rest) =>
      if keepRec e then parseGo f (acc ++ renderSetCmd (e.1.drop 1) e.2) rest
      else parseGo f acc rest

/-- WriteRedisCommandsFromSnapshot on a whole stream, run with
sufficient fuel from an empty output. -/
def parseSnapshotRun (s : Bytes) : Bytes × Bool :=
  parseGo s.length [] s

/-- Output of the offline converter on a list of decoded records: one
rendered command block per kept record, marker byte stripped. -/
def emittedBlocks (es : List (Bytes × Bytes)) : Bytes :=
  ((es.filter (fun e => keepRec e)).map (fun e => renderSetCmd (e.1.drop 1) e.2)).flatten

/-! Helper lemmas about the key order and the storage operations. -/

theorem keyLt_irrefl (a : Bytes) : keyLt a a = false := by
  induction a with
  | nil => rfl
  | cons x xs ih => simp [keyLt, ih]

theorem keyLt_ne {a b : Bytes} (h : keyLt a b = true) : a ≠ b := by
  intro he
  subst he
  rw [keyLt_irrefl] at h
  exact Bool.false_ne_true h

theorem keyLt_asymm {a b : Bytes} (h : keyLt a b = true) : keyLt b a = false := by
  induction a generalizing b with
  | nil =>
    cases b with
    | nil => rfl
    | cons y ys => rfl
  | cons x xs ih =>
    cases b with
    | nil => simp [keyLt] at h
    | cons y ys =>
      simp only [keyLt, Bool.or_eq_true, Bool.and_eq_true, beq_iff_eq,
        decide_eq_true_eq] at h
      rcases h with h | ⟨he, hrec⟩
      · simp [keyLt]
        exact ⟨Nat.le_of_lt h, fun he => absurd h (by omega)⟩
      · subst he
        simp [keyLt]
        exact ih hrec

/-- Putting a key strictly greater than every key of a sorted keyspace
appends the entry at the end. -/
theorem dbPut_gt {K : Keyspace} {k v : Bytes}
    (h : ∀ e ∈ K, keyLt e.1 k = true) : dbPut k v K = K ++ [(k, v)] := by
  induction K with
  | nil => rfl
  | cons e rest ih =>
    have he : keyLt e.1 k = true := h e (List.mem_cons_self e rest)
    have h1 : keyLt k e.1 = false := keyLt_asymm he
    have h2 : k ≠ e.1 := fun hk => keyLt_ne he hk.symm
    cases e with
    | mk ek ev =>
      simp only [dbPut, h1, Bool.false_eq_true, if_false, h2, List.cons_append]
      rw [ih (fun e hm => h e (List.mem_cons_of_mem _ hm))]

/-- Replaying a sorted block of entries, each greater than every key
already present, appends the block. -/
theorem replay_extend {L : List (Bytes × Bytes)} {K : Keyspace}
    (hcross : ∀ e ∈ L, ∀ a ∈ K, keyLt a.1 e.1 = true)
    (hs : SortedKS L) : replayRecs K L = K ++ L := by
  induction L generalizing K with
  | nil => simp [replayRecs]
  | cons e rest ih =>
    have hput : dbPut e.1 e.2 K = K ++ [(e.1, e.2)] :=
      dbPut_gt (fun a ha => hcross e (List.mem_cons_self e rest) a ha)
    have hs' : SortedKS rest := (List.pairwise_cons.mp hs).2
    have hhead : ∀ b ∈ rest, keyLt e.1 b.1 = true := (List.pairwise_cons.mp hs).1
    have hcross' : ∀ x ∈ rest, ∀ a ∈ K ++ [(e.1, e.2)], keyLt a.1 x.1 = true := by
      intro x hx a ha
      rcases List.mem_append.mp ha with h | h
      · exact hcross x (List.mem_cons_of_mem _ hx) a h
      · rcases List.mem_singleton.mp h with rfl
        exact hhead x hx
    have : replayRecs K (e :: rest) = replayRecs (dbPut e.1 e.2 K) rest := rfl
    rw [this, hput, ih hcross' hs']
    simp

/-- Replaying a sorted keyspace into an empty instance reproduces it. -/
theorem replay_from_empty {L : List (Bytes × Bytes)} (hs : SortedKS L) :
    replayRecs [] L = L := by
  have := replay_extend (L := L) (K := []) (fun e _ a ha => absurd ha (List.not_mem_nil a)) hs
  simpa using this

/-! Helper lemmas about the snapshot codec. -/

theorem le64_length (n : Nat) : (le64 n).length = 8 := rfl

theorem readLE64_le64 {n : Nat} (h : n < 2 ^ 64) : readLE64 (le64 n) = n := by
  simp only [readLE64, le64, List.getD_cons_zero, List.getD_cons_succ]
  omega

theorem readRec_short {s : Bytes} (h : s.length < 8) : readRec s = none := by
  simp [readRec, h]

theorem readRec_rest_lt {s rest : Bytes} {e : Bytes × Bytes}
    (h : readRec s = some (e, rest)) : rest.length < s.length := by
  unfold readRec at h
  split at h
  · exact absurd h (by simp)
  · split at h
    · exact absurd h (by simp)
    · split at h
      · exact absurd h (by simp)
      · split at h
        · exact absurd h (by simp)
        · simp only [Option.some.injEq, Prod.mk.injEq] at h
          rcases h with ⟨_, hrest⟩
          rw [← hrest]
          simp only [List.length_drop]
          omega

/-- Reading a record from an encoded entry followed by anything parses
the entry and leaves the rest of the stream. -/
theorem readRec_enc (k v s : Bytes) (hk : k.length < 2 ^ 64) (hv : v.length < 2 ^ 64) :
    readRec (encodeEntry (k, v) ++ s) = some ((k, v), s) := by
  have e1 : encodeEntry (k, v) ++ s = le64 k.length ++ (k ++ (le64 v.length ++ (v ++ s))) := by
    simp [encodeEntry, List.append_assoc]
  have t1 : (le64 k.length ++ (k ++ (le64 v.length ++ (v ++ s)))).take 8 = le64 k.length :=
    List.take_left' (le64_length _)
  have d1 : (le64 k.length ++ (k ++ (le64 v.length ++ (v ++ s)))).drop 8 =
      k ++ (le64 v.length ++ (v ++ s)) :=
    List.drop_left' (le64_length _)
  have t2 : (k ++ (le64 v.length ++ (v ++ s))).take k.length = k := List.take_left k _
  have d2 : (k ++ (le64 v.length ++ (v ++ s))).drop k.length = le64 v.length ++ (v ++ s) :=
    List.drop_left k _
  have t3 : (le64 v.length ++ (v ++ s)).take 8 = le64 v.length := List.take_left' (le64_length _)
  have d3 : (le64 v.length ++ (v ++ s)).drop 8 = v ++ s := List.drop_left' (le64_length _)
  have t4 : (v ++ s).take v.length = v := List.take_left v s
  have d4 : (v ++ s).drop v.length = s := List.drop_left v s
  have hc1 : ¬((le64 k.length ++ (k ++ (le64 v.length ++ (v ++ s)))).length < 8) := by
    simp only [List.length_append, le64_length, Nat.not_lt]
    omega
  have hc2 : ¬((k ++ (le64 v.length ++ (v ++ s))).length < k.length) := by
    simp only [List.length_append]
    omega
  have hc3 : ¬((le64 v.length ++ (v ++ s)).length < 8) := by
    simp only [List.length_append, le64_length, Nat.not_lt]
    omega
  have hc4 : ¬((v ++ s).length < v.length) := by
    simp only [List.length_append]
    omega
  rw [e1]
  unfold readRec
  simp only [t1, d1, readLE64_le64 hk, hc1, if_false, t2, d2, hc2, t3, d3,
    readLE64_le64 hv, hc3, hc4, t4, d4]

/-- Fuel irrelevance of the decode loop: any fuel at least the stream
length gives the same result. -/
theorem decodeGo_big (f g : Nat) (s : Bytes) (hf : s.length ≤ f) (hg : s.length ≤ g) :
    decodeGo f s = decodeGo g s := by
  induction f generalizing g s with
  | zero =>
    have : s = [] := List.length_eq_zero.mp (Nat.le_zero.mp hf)
    subst this
    cases g <;> rfl
  | succ f ih =>
    cases s with
    | nil => cases g <;> rfl
    | cons b t =>
      have hf' : t.length + 1 ≤ f + 1 := by simpa using hf
      have hg' : t.length + 1 ≤ g := by simpa using hg
      obtain ⟨g', rfl⟩ : ∃ g', g = g' + 1 := ⟨g - 1, by omega⟩
      show decodeGo (f + 1) (b :: t) = decodeGo (g' + 1) (b :: t)
      simp only [decodeGo]
      cases hr : readRec (b :: t) with
      | none => rfl
      | some pr =>
        obtain ⟨e, rest⟩ := pr
        have hlt : rest.length < t.length + 1 := by simpa using readRec_rest_lt hr
        dsimp only
        rw [ih g' rest (by omega) (by omega)]

/-- Fuel irrelevance of the restore loop. -/
theorem restoreGo_big (f g : Nat) (K : Keyspace) (s : Bytes)
    (hf : s.length ≤ f) (hg : s.length ≤ g) : restoreGo f K s = restoreGo g K s := by
  induction f generalizing g K s with
  | zero =>
    have : s = [] := List.length_eq_zero.mp (Nat.le_zero.mp hf)
    subst this
    cases g <;> rfl
  | succ f ih =>
    cases s with
    | nil => cases g <;> rfl
    | cons b t =>
      have hf' : t.length + 1 ≤ f + 1 := by simpa using hf
      have hg' : t.length + 1 ≤ g := by simpa using hg
      obtain ⟨g', rfl⟩ : ∃ g', g = g' + 1 := ⟨g - 1, by omega⟩
      show restoreGo (f + 1) K (b :: t) = restoreGo (g' + 1) K (b :: t)
      simp only [restoreGo]
      cases hr : readRec (b :: t) with
      | none => rfl
      | some pr =>
        obtain ⟨e, rest⟩ := pr
        have hlt : rest.length < t.length + 1 := by simpa using readRec_rest_lt hr
        dsimp only
        exact ih g' (dbPut e.1 e.2 K) rest (by omega) (by omega)

/-- Fuel irrelevance of the converter loop. -/
theorem parseGo_big (f g : Nat) (acc : Bytes) (s : Bytes)
    (hf : s.length ≤ f) (hg : s.length ≤ g) : parseGo f acc s = parseGo g acc s := by
  induction f generalizing g acc s with
  | zero =>
    have : s = [] := List.length_eq_zero.mp (Nat.le_zero.mp hf)
    subst this
    cases g <;> rfl
  | succ f ih =>
    cases s with
    | nil => cases g <;> rfl
    | cons b t =>
      have hf' : t.length + 1 ≤ f + 1 := by simpa using hf
      have hg' : t.length + 1 ≤ g := by simpa using hg
      obtain ⟨g', rfl⟩ : ∃ g', g = g' + 1 := ⟨g - 1, by omega⟩
      show parseGo (f + 1) acc (b :: t) = parseGo (g' + 1) acc (b :: t)
      simp only [parseGo]
      cases hr : readRec (b :: t) with
      | none => rfl
      | some pr =>
        obtain ⟨e, rest⟩ := pr
        have hlt : rest.length < t.length + 1 := by simpa using readRec_rest_lt hr
        dsimp only
        by_cases hk : keepRec e
        · simp only [hk, if_true]
          exact ih g' (acc ++ renderSetCmd (e.1.drop 1) e.2) rest (by omega) (by omega)
        · simp only [hk, if_false]
          exact ih g' acc rest (by omega) (by omega)

/-- Converter loop on an arbitrary accumulated output, run with
sufficient fuel (proof-layer generalization of parseSnapshotRun). -/
def parseRun (acc : Bytes) (s : Bytes) : Bytes × Bool :=
  parseGo s.length acc s

theorem decode_of_readRec (s : Bytes) (e : Bytes × Bytes) (rest : Bytes)
    (h : readRec s = some (e, rest)) :
    decodeRecs s =
      match decodeRecs rest with
      | Except.error u => Except.error u
      | Except.ok es => Except.ok (e :: es) := by
  have hlt := readRec_rest_lt h
  cases s with
  | nil => simp [readRec] at h
  | cons b t =>
    unfold decodeRecs
    simp only [List.length_cons, decodeGo]
    rw [h]
    dsimp only
    rw [decodeGo_big t.length rest.length rest (by simp only [List.length_cons] at hlt; omega) le_rfl]

theorem decode_err_of_none (s : Bytes) (hne : s ≠ []) (h : readRec s = none) :
    decodeRecs s = Except.error () := by
  cases s with
  | nil => exact absurd rfl hne
  | cons b t =>
    unfold decodeRecs
    simp only [List.length_cons, decodeGo]
    rw [h]

theorem restore_of_readRec (K : Keyspace) (s : Bytes) (e : Bytes × Bytes) (rest : Bytes)
    (h : readRec s = some (e, rest)) :
    restoreRun K s = restoreRun (dbPut e.1 e.2 K) rest := by
  have hlt := readRec_rest_lt h
  cases s with
  | nil => simp [readRec] at h
  | cons b t =>
    unfold restoreRun
    simp only [List.length_cons, restoreGo]
    rw [h]
    dsimp only
    exact restoreGo_big t.length rest.length _ rest (by simp only [List.length_cons] at hlt; omega) le_rfl

theorem restore_err_of_none (K : Keyspace) (s : Bytes) (hne : s ≠ []) (h : readRec s = none) :
    restoreRun K s = (K, false) := by
  cases s with
  | nil => exact absurd rfl hne
  | cons b t =>
    unfold restoreRun
    simp only [List.length_cons, restoreGo]
    rw [h]

theorem parse_of_readRec (acc : Bytes) (s : Bytes) (e : Bytes × Bytes) (rest : Bytes)
    (h : readRec s = some (e, rest)) :
    parseRun acc s =
      parseRun (if keepRec e then acc ++ renderSetCmd (e.1.drop 1) e.2 else acc) rest := by
  have hlt := readRec_rest_lt h
  cases s with
  | nil => simp [readRec] at h
  | cons b t =>
    unfold parseRun
    simp only [List.length_cons, parseGo]
    rw [h]
    dsimp only
    by_cases hk : keepRec e
    · simp only [hk, if_true]
      exact parseGo_big t.length rest.length _ rest (by simp only [List.length_cons] at hlt; omega) le_rfl
    · simp only [if_neg hk]
      exact parseGo_big t.length rest.length _ rest (by simp only [List.length_cons] at hlt; omega) le_rfl

/-- Decoding a snapshot of a record list recovers exactly that list. -/
theorem decode_snapshot (K : List (Bytes × Bytes))
    (hb : ∀ e ∈ K, e.1.length < 2 ^ 64 ∧ e.2.length < 2 ^ 64) :
    decodeRecs (snapshotBytes K) = Except.ok K := by
  induction K with
  | nil => rfl
  | cons e rest ih =>
    have he := hb e (List.mem_cons_self e rest)
    have hsnap : snapshotBytes (e :: rest) = encodeEntry e ++ snapshotBytes rest := by
      simp [snapshotBytes]
    rw [hsnap, decode_of_readRec _ e _ (readRec_enc e.1 e.2 _ he.1 he.2)]
    rw [ih (fun x hx => hb x (List.mem_cons_of_mem _ hx))]

/-- Decoding a snapshot followed by a tail decodes the snapshot records
and continues on the tail. -/
theorem decode_snapshot_append (K : List (Bytes × Bytes))
    (hb : ∀ e ∈ K, e.1.length < 2 ^ 64 ∧ e.2.length < 2 ^ 64) (t : Bytes) :
    decodeRecs (snapshotBytes K ++ t) =
      match decodeRecs t with
      | Except.error u => Except.error u
      | Except.ok es => Except.ok (K ++ es) := by
  induction K with
  | nil =>
    show decodeRecs (snapshotBytes [] ++ t) = _
    have h0 : snapshotBytes [] ++ t = t := by simp [snapshotBytes]
    rw [h0]
    cases decodeRecs t <;> rfl
  | cons e rest ih =>
    have he := hb e (List.mem_cons_self e rest)
    have hsnap : snapshotBytes (e :: rest) ++ t = encodeEntry e ++ (snapshotBytes rest ++ t) := by
      simp [snapshotBytes, List.append_assoc]
    rw [hsnap, decode_of_readRec _ e _ (readRec_enc e.1 e.2 _ he.1 he.2)]
    rw [ih (fun x hx => hb x (List.mem_cons_of_mem _ hx))]
    cases decodeRecs t <;> rfl

/-- The restore loop replays every record of a snapshot followed by a
tail and continues on the tail. -/
theorem restore_snapshot_append (L : List (Bytes × Bytes))
    (hb : ∀ e ∈ L, e.1.length < 2 ^ 64 ∧ e.2.length < 2 ^ 64) (K : Keyspace) (t : Bytes) :
    restoreRun K (snapshotBytes L ++ t) = restoreRun (replayRecs K L) t := by
  induction L generalizing K with
  | nil =>
    have h0 : snapshotBytes [] ++ t = t := by simp [snapshotBytes]
    rw [h0]
    rfl
  | cons e rest ih =>
    have he := hb e (List.mem_cons_self e rest)
    have hsnap : snapshotBytes (e :: rest) ++ t = encodeEntry e ++ (snapshotBytes rest ++ t) := by
      simp [snapshotBytes, List.append_assoc]
    rw [hsnap, restore_of_readRec K _ e _ (readRec_enc e.1 e.2 _ he.1 he.2)]
    exact ih (fun x hx => hb x (List.mem_cons_of_mem _ hx)) (dbPut e.1 e.2 K)

/-- The restore loop on exactly a snapshot stream replays every record
and reports a clean end of stream. -/
theorem restore_snapshot (L : List (Bytes × Bytes))
    (hb : ∀ e ∈ L, e.1.length < 2 ^ 64 ∧ e.2.length < 2 ^ 64) (K : Keyspace) :
    restoreRun K (snapshotBytes L) = (replayRecs K L, true) := by
  have := restore_snapshot_append L hb K []
  simpa using this

/-- One step of the emitted-blocks characterization. -/
theorem emittedBlocks_cons (e : Bytes × Bytes) (rest : List (Bytes × Bytes)) :
    emittedBlocks (e :: rest) =
      (if keepRec e then renderSetCmd (e.1.drop 1) e.2 else []) ++ emittedBlocks rest := by
  by_cases hk : keepRec e <;> simp [emittedBlocks, List.filter_cons, hk]

/-- The converter loop on a snapshot stream followed by a tail appends
the blocks of the kept records and continues on the tail. -/
theorem parse_snapshot_append (es : List (Bytes × Bytes))
    (hb : ∀ e ∈ es, e.1.length < 2 ^ 64 ∧ e.2.length < 2 ^ 64) (acc : Bytes) (t : Bytes) :
    parseRun acc (snapshotBytes es ++ t) = parseRun (acc ++ emittedBlocks es) t := by
  induction es generalizing acc with
  | nil =>
    have h0 : snapshotBytes [] ++ t = t := by simp [snapshotBytes]
    have h1 : acc ++ emittedBlocks [] = acc := by simp [emittedBlocks]
    rw [h0, h1]
  | cons e rest ih =>
    have he := hb e (List.mem_cons_self e rest)
    have hsnap : snapshotBytes (e :: rest) ++ t = encodeEntry e ++ (snapshotBytes rest ++ t) := by
      simp [snapshotBytes, List.append_assoc]
    rw [hsnap, parse_of_readRec acc _ e _ (readRec_enc e.1 e.2 _ he.1 he.2)]
    rw [emittedBlocks_cons]
    by_cases hk : keepRec e
    · simp only [hk, if_true]
      rw [ih (fun x hx => hb x (List.mem_cons_of_mem _ hx)) (acc ++ renderSetCmd (e.1.drop 1) e.2)]
      rw [List.append_assoc]
    · simp only [if_neg hk]
      rw [ih (fun x hx => hb x (List.mem_cons_of_mem _ hx)) acc]
      simp

/-- The delete loop folds the deletions and counts every iteration. -/
theorem delLoop_spec (keys : List Bytes) (K : Keyspace) (n : Nat) :
    delLoop K keys n = (keys.foldl (fun s k => dbDelete k s) K, n + keys.length) := by
  induction keys generalizing K n with
  | nil => simp [delLoop]
  | cons k rest ih =>
    simp only [delLoop, List.foldl_cons, List.length_cons, ih, Prod.mk.injEq, true_and]
    omega

/-! Routing lemmas: the dispatcher sends each concrete command name to
its handler (the name lowercases to itself and differs from the
earlier names in the switch). -/

theorem dispatch_echo (K : Keyspace) (rest : List Bytes) :
    dispatch K (strEcho :: rest) = cmdEcho K (strEcho :: rest) := rfl

theorem dispatch_set (K : Keyspace) (rest : List Bytes) :
    dispatch K (strSet :: rest) = cmdSet K (strSet :: rest) := rfl

theorem dispatch_get (K : Keyspace) (rest : List Bytes) :
    dispatch K (strGet :: rest) = cmdGet K (strGet :: rest) := rfl

theorem dispatch_del (K : Keyspace) (rest : List Bytes) :
    dispatch K (strDel :: rest) = cmdDel K (strDel :: rest) := rfl

theorem dispatch_keys (K : Keyspace) (rest : List Bytes) :
    dispatch K (strKeys :: rest) = cmdKeys K (strKeys :: rest) := rfl

theorem dispatch_flushdb (K : Keyspace) (rest : List Bytes) :
    dispatch K (strFlushdb :: rest) = cmdFlushdb K (strFlushdb :: rest) := rfl

theorem dispatch_shutdown (K : Keyspace) (rest : List Bytes) :
    dispatch K (strShutdown :: rest) = Outcome.shutdown := rfl

/-! Claim theorems. -/

/-- C1, counterexample: with only the key k1 present, the command del
k1 k2 returns the integer 2 (the loop counts both argument keys), not
the count 1 of keys actually present and removed that the claim
states. -/
theorem c1_del_count_cex :
    dispatch [([107, 49], [120])] [strDel, [107, 49], [107, 50]]
      = Outcome.done [] (Reply.int 2) ∧ Reply.int 2 ≠ Reply.int 1 := by
  decide

/-- C1, amended: del never fails on a missing key and its reply is the
integer number of argument keys, with every argument deleted in order;
a missing key still contributes 1 to the count, so del k1 k2 with only
k1 present returns 2. -/
theorem c1_del_returns_arg_count (K : Keyspace) (keys : List Bytes) :
    dispatch K (strDel :: keys)
      = Outcome.done (keys.foldl (fun s k => dbDelete k s) K) (Reply.int keys.length) := by
  rw [dispatch_del]
  simp only [cmdDel, List.drop_succ_cons, List.drop_zero, delLoop_spec]
  simp

/-- C2, counterexample: del with zero key arguments is not rejected (it
returns the integer 0), keys with zero arguments is rejected with the
wrong-argument-count error although the claim allows zero arguments,
and shutdown with a spurious argument is not rejected. -/
theorem c2_arity_cex :
    dispatch [([97], [98])] [strDel] = Outcome.done [([97], [98])] (Reply.int 0) ∧
    dispatch [([97], [98])] [strKeys] = Outcome.fail Err.wrongArgs ∧
    dispatch [] [strShutdown, [120]] = Outcome.shutdown := by
  decide

/-- C2, amended: echo, set, get and flushdb reject exactly the argument
counts outside their arity (1, 2, 1 and 0 arguments after the name)
with the wrong-argument-count error, before any keyspace mutation; del
performs no arity check at all (zero keys included); keys rejects
exactly the zero-argument form, because its first argument (a pattern)
is mandatory; shutdown never checks its arity. -/
theorem c2_arity_characterization (K : Keyspace) :
    (∀ rest : List Bytes,
      dispatch K (strEcho :: rest) = Outcome.fail Err.wrongArgs ↔ rest.length ≠ 1) ∧
    (∀ rest : List Bytes,
      dispatch K (strSet :: rest) = Outcome.fail Err.wrongArgs ↔ rest.length ≠ 2) ∧
    (∀ rest : List Bytes,
      dispatch K (strGet :: rest) = Outcome.fail Err.wrongArgs ↔ rest.length ≠ 1) ∧
    (∀ rest : List Bytes,
      dispatch K (strFlushdb :: rest) = Outcome.fail Err.wrongArgs ↔ rest.length ≠ 0) ∧
    (∀ rest : List Bytes, dispatch K (strDel :: rest) ≠ Outcome.fail Err.wrongArgs) ∧
    (∀ rest : List Bytes,
      dispatch K (strKeys :: rest) = Outcome.fail Err.wrongArgs ↔ rest = []) ∧
    (∀ rest : List Bytes, dispatch K (strShutdown :: rest) = Outcome.shutdown) := by
  refine ⟨?_, ?_, ?_, ?_, ?_, ?_, fun rest => dispatch_shutdown K rest⟩
  · intro rest
    rw [dispatch_echo]
    match rest with
    | [] => simp [cmdEcho]
    | [a] => simp [cmdEcho]
    | a :: b :: l => simp [cmdEcho]
  · intro rest
    rw [dispatch_set]
    match rest with
    | [] => simp [cmdSet]
    | [a] => simp [cmdSet]
    | [a, b] => simp [cmdSet]
    | a :: b :: c :: l => simp [cmdSet]
  · intro rest
    rw [dispatch_get]
    match rest with
    | [] => simp [cmdGet]
    | [a] =>
      cases h : dbGet a K <;> simp [cmdGet, h]
    | a :: b :: l => simp [cmdGet]
  · intro rest
    rw [dispatch_flushdb]
    match rest with
    | [] => simp [cmdFlushdb]
    | a :: l => simp [cmdFlushdb]
  · intro rest
    rw [dispatch_del]
    simp [cmdDel]
  · intro rest
    rw [dispatch_keys]
    match rest with
    | [] => simp [cmdKeys]
    | a :: l =>
      have h1 : ¬((strKeys :: a :: l).length < 2) := by
        simp only [List.length_cons]
        omega
      simp only [cmdKeys, h1, if_false]
      cases hp : parseKeysFlags ((strKeys :: a :: l).drop 2) <;> simp [hp]

/-- A stream starting with a length field that declares more key bytes
than remain cannot complete a record read. -/
theorem readRec_keyshort {n : Nat} {u : Bytes} (hn : n < 2 ^ 64) (hu : u.length < n) :
    readRec (le64 n ++ u) = none := by
  have hc1 : ¬((le64 n ++ u).length < 8) := by
    simp only [List.length_append, le64_length, Nat.not_lt]
    omega
  have ht : (le64 n ++ u).take 8 = le64 n := List.take_left' (le64_length n)
  have hd : (le64 n ++ u).drop 8 = u := List.drop_left' (le64_length n)
  unfold readRec
  simp only [hc1, if_false, ht, hd, readLE64_le64 hn, hu, if_true]

/-- A stream that ends inside or just before the value length field
(after a complete key part, fewer than eight bytes remain) cannot
complete a record read. -/
theorem readRec_vlenshort {k m : Bytes} (hk : k.length < 2 ^ 64) (hm : m.length < 8) :
    readRec (le64 k.length ++ (k ++ m)) = none := by
  have hc1 : ¬((le64 k.length ++ (k ++ m)).length < 8) := by
    simp only [List.length_append, le64_length, Nat.not_lt]
    omega
  have ht1 : (le64 k.length ++ (k ++ m)).take 8 = le64 k.length :=
    List.take_left' (le64_length _)
  have hd1 : (le64 k.length ++ (k ++ m)).drop 8 = k ++ m :=
    List.drop_left' (le64_length _)
  have hc2 : ¬((k ++ m).length < k.length) := by
    simp only [List.length_append]
    omega
  have hd2 : (k ++ m).drop k.length = m := List.drop_left k m
  unfold readRec
  simp only [hc1, if_false, ht1, hd1, readLE64_le64 hk, hc2, hd2, hm, if_true]

/-- A stream with a full key part but a value length field declaring
more value bytes than remain cannot complete a record read. -/
theorem readRec_valshort {k : Bytes} {n : Nat} {w : Bytes}
    (hk : k.length < 2 ^ 64) (hn : n < 2 ^ 64) (hw : w.length < n) :
    readRec (le64 k.length ++ (k ++ (le64 n ++ w))) = none := by
  have hc1 : ¬((le64 k.length ++ (k ++ (le64 n ++ w))).length < 8) := by
    simp only [List.length_append, le64_length, Nat.not_lt]
    omega
  have ht1 : (le64 k.length ++ (k ++ (le64 n ++ w))).take 8 = le64 k.length :=
    List.take_left' (le64_length _)
  have hd1 : (le64 k.length ++ (k ++ (le64 n ++ w))).drop 8 = k ++ (le64 n ++ w) :=
    List.drop_left' (le64_length _)
  have hc2 : ¬((k ++ (le64 n ++ w)).length < k.length) := by
    simp only [List.length_append]
    omega
  have hd2 : (k ++ (le64 n ++ w)).drop k.length = le64 n ++ w := List.drop_left k _
  have hc3 : ¬((le64 n ++ w).length < 8) := by
    simp only [List.length_append, le64_length, Nat.not_lt]
    omega
  have ht3 : (le64 n ++ w).take 8 = le64 n := List.take_left' (le64_length n)
  have hd3 : (le64 n ++ w).drop 8 = w := List.drop_left' (le64_length n)
  unfold readRec
  simp only [hc1, if_false, ht1, hd1, readLE64_le64 hk, hc2, hd2, hc3, ht3,
    readLE64_le64 hn, hd3, hw, if_true]

/-- C3, counterexample: restoring a stream that encodes the entry
mapping byte 97 to byte 49 and then breaks off inside the next length
field fails the decode, yet the keyspace afterwards holds that entry:
the partially replayed prefix is retained, not the fresh-empty state
the claim requires. -/
theorem c3_restore_partial_cex :
    machineRestore (snapshotBytes [([97], [49])] ++ [0]) = ([([97], [49])], false) ∧
    ([([97], [49])] : Keyspace) ≠ ([] : Keyspace) := by
  decide

/-- C3, amended: restore reopens a fresh empty instance and replays the
stream into it, but a decode error only aborts the loop: the keyspace
afterwards holds exactly the entries decoded before the error (here a
whole snapshot of a sorted keyspace followed by a truncated length
field), not the fresh-empty state. -/
theorem c3_restore_error_keeps_replayed (K : Keyspace) (hs : SortedKS K)
    (hb : ∀ e ∈ K, e.1.length < 2 ^ 63 ∧ e.2.length < 2 ^ 63)
    (t : Bytes) (ht1 : t ≠ []) (ht8 : t.length < 8) :
    machineRestore (snapshotBytes K ++ t) = (K, false) := by
  have hb64 : ∀ e ∈ K, e.1.length < 2 ^ 64 ∧ e.2.length < 2 ^ 64 := fun e he =>
    ⟨lt_trans (hb e he).1 (by norm_num), lt_trans (hb e he).2 (by norm_num)⟩
  unfold machineRestore
  rw [restore_snapshot_append K hb64 [] t]
  rw [show replayRecs [] K = K from replay_from_empty hs]
  exact restore_err_of_none K t ht1 (readRec_short ht8)

/-- C3, witness of the amended theorem at a concrete keyspace and a
concrete truncated tail. -/
theorem c3_restore_error_keeps_replayed_witness :
    machineRestore (snapshotBytes [([97], [49])] ++ [0]) = ([([97], [49])], false) :=
  c3_restore_error_keeps_replayed [([97], [49])] (by decide) (by decide) [0]
    (by decide) (by decide)

/-- C4: a snapshot of any sorted keyspace restored into a fresh empty
instance reproduces exactly that keyspace (and the decoder recovers
exactly its records), the round-trip identity of the snapshot codec. -/
theorem c4_snapshot_restore_roundtrip (K : Keyspace) (hs : SortedKS K)
    (hb : ∀ e ∈ K, e.1.length < 2 ^ 63 ∧ e.2.length < 2 ^ 63) :
    machineRestore (snapshotBytes K) = (K, true) ∧
    decodeRecs (snapshotBytes K) = Except.ok K := by
  have hb64 : ∀ e ∈ K, e.1.length < 2 ^ 64 ∧ e.2.length < 2 ^ 64 := fun e he =>
    ⟨lt_trans (hb e he).1 (by norm_num), lt_trans (hb e he).2 (by norm_num)⟩
  constructor
  · unfold machineRestore
    rw [restore_snapshot K hb64 []]
    rw [show replayRecs [] K = K from replay_from_empty hs]
  · exact decode_snapshot K hb64

/-- C4, witness at the two-entry keyspace mapping byte 97 to 49 and
byte 98 to 50. -/
theorem c4_snapshot_restore_roundtrip_witness :
    machineRestore (snapshotBytes [([97], [49]), ([98], [50])])
        = ([([97], [49]), ([98], [50])], true) ∧
    decodeRecs (snapshotBytes [([97], [49]), ([98], [50])])
        = Except.ok [([97], [49]), ([98], [50])] :=
  c4_snapshot_restore_roundtrip [([97], [49]), ([98], [50])] (by decide) (by decide)

/-- C5: get on an absent key answers the null reply and get on a key
holding the empty value answers an empty bulk reply, and the two
replies are distinct. -/
theorem c5_get_null_vs_empty (K : Keyspace) (k : Bytes) :
    (dbGet k K = none → dispatch K [strGet, k] = Outcome.done K Reply.nullReply) ∧
    (dbGet k K = some [] → dispatch K [strGet, k] = Outcome.done K (Reply.bulk [])) ∧
    Reply.nullReply ≠ Reply.bulk [] := by
  refine ⟨?_, ?_, by decide⟩
  · intro h
    rw [dispatch_get]
    simp [cmdGet, h]
  · intro h
    rw [dispatch_get]
    simp [cmdGet, h]

/-- C5, witness: on the keyspace holding only byte 97 with the empty
value, get of byte 98 is null and get of byte 97 is the empty bulk. -/
theorem c5_get_null_vs_empty_witness :
    dispatch [([97], [])] [strGet, [98]] = Outcome.done [([97], [])] Reply.nullReply ∧
    dispatch [([97], [])] [strGet, [97]] = Outcome.done [([97], [])] (Reply.bulk []) :=
  ⟨(c5_get_null_vs_empty [([97], [])] [98]).1 (by decide),
   (c5_get_null_vs_empty [([97], [])] [97]).2.1 (by decide)⟩

/-- C6, counterexample: on the keyspace after set key1 1 and set key2 2,
the bare keys command is rejected with the wrong-argument-count error
instead of returning the key list, and keys with the single argument
withvalues treats that argument as the pattern and returns the keys
without values instead of the interleaved list the claim states. -/
theorem c6_keys_scenario_cex :
    dispatch (dbPut [107, 101, 121, 50] [50] (dbPut [107, 101, 121, 49] [49] []))
        [strKeys] = Outcome.fail Err.wrongArgs ∧
    dispatch (dbPut [107, 101, 121, 50] [50] (dbPut [107, 101, 121, 49] [49] []))
        [strKeys, strWithvalues]
      = Outcome.done [([107, 101, 121, 49], [49]), ([107, 101, 121, 50], [50])]
          (Reply.arr [[107, 101, 121, 49], [107, 101, 121, 50]]) := by
  decide

/-- C6, amended: keys requires a first pattern argument (which does not
filter); given one, it enumerates all keys of a sorted keyspace in
ascending key order, and with the withvalues flag after the pattern it
interleaves each key immediately followed by its value, still in
ascending key order. -/
theorem c6_keys_sorted_enumeration (K : Keyspace) (hs : SortedKS K) (pat : Bytes) :
    dispatch K [strKeys, pat] = Outcome.done K (Reply.arr (K.map (fun e => e.1))) ∧
    dispatch K [strKeys, pat, strWithvalues]
      = Outcome.done K (Reply.arr ((K.map (fun e => [e.1, e.2])).flatten)) ∧
    List.Pairwise (fun a b => keyLt a b = true) (K.map (fun e => e.1)) := by
  refine ⟨?_, ?_, List.pairwise_map.mpr hs⟩
  · rw [dispatch_keys]
    simp [cmdKeys, parseKeysFlags, keysEntries]
  · rw [dispatch_keys]
    have hwv : parseKeysFlags [strWithvalues] = some true := by decide
    simp [cmdKeys, hwv, keysEntries]

/-- C6, witness at the scenario keyspace of key1 and key2 with the
pattern argument star. -/
theorem c6_keys_sorted_enumeration_witness :
    dispatch [([107, 101, 121, 49], [49]), ([107, 101, 121, 50], [50])] [strKeys, [42]]
      = Outcome.done [([107, 101, 121, 49], [49]), ([107, 101, 121, 50], [50])]
          (Reply.arr [[107, 101, 121, 49], [107, 101, 121, 50]]) ∧
    dispatch [([107, 101, 121, 49], [49]), ([107, 101, 121, 50], [50])]
        [strKeys, [42], strWithvalues]
      = Outcome.done [([107, 101, 121, 49], [49]), ([107, 101, 121, 50], [50])]
          (Reply.arr [[107, 101, 121, 49], [49], [107, 101, 121, 50], [50]]) ∧
    List.Pairwise (fun a b => keyLt a b = true) [[107, 101, 121, 49], [107, 101, 121, 50]] :=
  c6_keys_sorted_enumeration [([107, 101, 121, 49], [49]), ([107, 101, 121, 50], [50])]
    (by decide) [42]

/-- C7: decoding a snapshot stream truncated mid-record is an error and
never yields a partial entry, at every cut point inside a record: a
key length field cut short after at least one byte, a declared key
length exceeding the remaining bytes, a stream ending inside or just
before the value length field after a complete key (zero to seven
bytes of that field present), and a declared value length exceeding
the remaining bytes each abort the decode, while a truncation exactly
on a record boundary is the normal end of stream recovering exactly
the encoded records.  The length bounds reflect the conversion of the
eight-byte field to a machine-sized nonnegative count. -/
theorem c7_decode_truncation (K : List (Bytes × Bytes))
    (hb : ∀ e ∈ K, e.1.length < 2 ^ 63 ∧ e.2.length < 2 ^ 63) :
    (∀ t : Bytes, t ≠ [] → t.length < 8 →
      decodeRecs (snapshotBytes K ++ t) = Except.error ()) ∧
    (∀ n : Nat, ∀ u : Bytes, n < 2 ^ 63 → u.length < n →
      decodeRecs (snapshotBytes K ++ (le64 n ++ u)) = Except.error ()) ∧
    (∀ k m : Bytes, k.length < 2 ^ 63 → m.length < 8 →
      decodeRecs (snapshotBytes K ++ (le64 k.length ++ (k ++ m)))
        = Except.error ()) ∧
    (∀ k w : Bytes, ∀ n : Nat, k.length < 2 ^ 63 → n < 2 ^ 63 → w.length < n →
      decodeRecs (snapshotBytes K ++ (le64 k.length ++ (k ++ (le64 n ++ w))))
        = Except.error ()) ∧
    decodeRecs (snapshotBytes K) = Except.ok K := by
  have hb64 : ∀ e ∈ K, e.1.length < 2 ^ 64 ∧ e.2.length < 2 ^ 64 := fun e he =>
    ⟨lt_trans (hb e he).1 (by norm_num), lt_trans (hb e he).2 (by norm_num)⟩
  refine ⟨?_, ?_, ?_, ?_, decode_snapshot K hb64⟩
  · intro t ht1 ht8
    rw [decode_snapshot_append K hb64 t,
      decode_err_of_none t ht1 (readRec_short ht8)]
  · intro n u hn hu
    have hne : le64 n ++ u ≠ [] := by simp [le64]
    rw [decode_snapshot_append K hb64 _,
      decode_err_of_none _ hne (readRec_keyshort (lt_trans hn (by norm_num)) hu)]
  · intro k m hk hm
    have hne : le64 k.length ++ (k ++ m) ≠ [] := by simp [le64]
    rw [decode_snapshot_append K hb64 _,
      decode_err_of_none _ hne (readRec_vlenshort (lt_trans hk (by norm_num)) hm)]
  · intro k w n hk hn hw
    have hne : le64 k.length ++ (k ++ (le64 n ++ w)) ≠ [] := by simp [le64]
    rw [decode_snapshot_append K hb64 _,
      decode_err_of_none _ hne
        (readRec_valshort (lt_trans hk (by norm_num)) (lt_trans hn (by norm_num)) hw)]

/-- C7, witness: with one good record encoded in front, a one-byte
tail, a key length two with one remaining byte, a complete key
followed by one byte of the value length field, a complete key
followed by nothing at all, and a value length three with no remaining
bytes each decode to the corruption error, while the unappended stream
decodes cleanly. -/
theorem c7_decode_truncation_witness :
    decodeRecs (snapshotBytes [([97], [49])] ++ [0]) = Except.error () ∧
    decodeRecs (snapshotBytes [([97], [49])] ++ (le64 2 ++ [5])) = Except.error () ∧
    decodeRecs (snapshotBytes [([97], [49])] ++ (le64 ([97] : Bytes).length
      ++ ([97] ++ [5]))) = Except.error () ∧
    decodeRecs (snapshotBytes [([97], [49])] ++ (le64 ([97] : Bytes).length
      ++ ([97] ++ []))) = Except.error () ∧
    decodeRecs (snapshotBytes [([97], [49])] ++ (le64 ([99] : Bytes).length
      ++ ([99] ++ (le64 3 ++ [])))) = Except.error () ∧
    decodeRecs (snapshotBytes [([97], [49])]) = Except.ok [([97], [49])] :=
  ⟨(c7_decode_truncation [([97], [49])] (by decide)).1 [0] (by decide) (by decide),
   (c7_decode_truncation [([97], [49])] (by decide)).2.1 2 [5] (by decide) (by decide),
   (c7_decode_truncation [([97], [49])] (by decide)).2.2.1 [97] [5] (by decide) (by decide),
   (c7_decode_truncation [([97], [49])] (by decide)).2.2.1 [97] [] (by decide) (by decide),
   (c7_decode_truncation [([97], [49])] (by decide)).2.2.2.1 [99] [] 3 (by decide)
     (by decide) (by decide),
   (c7_decode_truncation [([97], [49])] (by decide)).2.2.2.2⟩

/-- C8: applying the same sequence of committed set and del commands on
two freshly initialized state machines yields the same final keyspace
and the same per-command apply results: the apply path is a pure
function of the prior keyspace and the command. -/
theorem c8_apply_deterministic (cs : List WriteCmd) (K1 K2 : Keyspace)
    (t1 t2 : List Reply)
    (h1 : runSeq [] cs = (K1, t1)) (h2 : runSeq [] cs = (K2, t2)) :
    K1 = K2 ∧ t1 = t2 := by
  have h := h1.symm.trans h2
  exact ⟨congrArg Prod.fst h, congrArg Prod.snd h⟩

/-- C8, witness at a concrete committed sequence of one set and one
del. -/
theorem c8_apply_deterministic_witness :
    runSeq [] [WriteCmd.setCmd [97] [49], WriteCmd.delCmd [[97], [98]]]
        = ([], [Reply.str strOK, Reply.int 2]) ∧
    (([] : Keyspace) = ([] : Keyspace) ∧
      ([Reply.str strOK, Reply.int 2] : List Reply) = [Reply.str strOK, Reply.int 2]) :=
  ⟨by decide,
   c8_apply_deterministic [WriteCmd.setCmd [97] [49], WriteCmd.delCmd [[97], [98]]]
     [] [] [Reply.str strOK, Reply.int 2] [Reply.str strOK, Reply.int 2]
     (by decide) (by decide)⟩

/-- C9: the offline converter run on a snapshot stream emits exactly
one command block per decoded record whose key carries the marker
byte, with the marker stripped, and nothing for records with an empty
or unmarked key; when no record carries the marker the output is
empty. -/
theorem c9_snapshot_commands (es : List (Bytes × Bytes))
    (hb : ∀ e ∈ es, e.1.length < 2 ^ 63 ∧ e.2.length < 2 ^ 63) :
    parseSnapshotRun (snapshotBytes es) = (emittedBlocks es, true) ∧
    ((∀ e ∈ es, keepRec e = false) → parseSnapshotRun (snapshotBytes es) = ([], true)) := by
  have hb64 : ∀ e ∈ es, e.1.length < 2 ^ 64 ∧ e.2.length < 2 ^ 64 := fun e he =>
    ⟨lt_trans (hb e he).1 (by norm_num), lt_trans (hb e he).2 (by norm_num)⟩
  have h1 : parseSnapshotRun (snapshotBytes es) = (emittedBlocks es, true) := by
    show parseRun [] (snapshotBytes es) = _
    have h := parse_snapshot_append es hb64 [] []
    simp only [List.append_nil] at h
    rw [h]
    rfl
  refine ⟨h1, fun hnone => ?_⟩
  have hz : emittedBlocks es = [] := by
    unfold emittedBlocks
    have hf : es.filter (fun e => keepRec e) = [] := by
      rw [List.filter_eq_nil_iff]
      intro a ha
      simp [hnone a ha]
    rw [hf]
    rfl
  rw [h1, hz]

/-- C9, witness: a snapshot of one marked record, one unmarked record
and one empty-keyed record emits exactly the block of the marked
record with the marker stripped, and a snapshot of only the unmarked
record emits nothing. -/
theorem c9_snapshot_commands_witness :
    parseSnapshotRun (snapshotBytes [([107, 97], [49]), ([120], [50]), ([], [51])])
        = (renderSetCmd [97] [49], true) ∧
    parseSnapshotRun (snapshotBytes [([120], [50])]) = ([], true) :=
  ⟨(c9_snapshot_commands [([107, 97], [49]), ([120], [50]), ([], [51])] (by decide)).1,
   (c9_snapshot_commands [([120], [50])] (by decide)).2 (by decide)⟩

/-- C10: the first argument of keys is never used: with the same
keyspace and the same remaining arguments, any two pattern arguments
give identical outcomes. -/
theorem c10_keys_pattern_ignored (K : Keyspace) (a b : Bytes) (rest : List Bytes) :
    dispatch K (strKeys :: a :: rest) = dispatch K (strKeys :: b :: rest) := by
  rw [dispatch_keys, dispatch_keys]
  have h1 : ¬((strKeys :: a :: rest).length < 2) := by
    simp only [List.length_cons]
    omega
  have h2 : ¬((strKeys :: b :: rest).length < 2) := by
    simp only [List.length_cons]
    omega
  simp only [cmdKeys, h1, h2, if_false, List.drop_succ_cons, List.drop_zero]

end Bitraft
